import Mathlib

/-!
Shallow embedding of `stockstalk` (`src/main.go`, the full revision of the
program: the one with the date-deduplicated report, `===` block headers and
the mail notifier).  Pure fragments of the Go program become Lean functions;
the file-backed persisted config becomes an explicit `FileState` value that
the orchestration functions take and return.

Floating point: Go's `float64` is modelled by `GFloat`, the rationals
extended with `NaN` and the two infinities.  Finite arithmetic is exact
rational arithmetic (the claims under verification never depend on binary
rounding), while the special cases of division and of `math.Pow` follow the
behaviour documented for Go's `math` package.  The model does not carry a
negative zero; the sign of a zero never influences any statement proved
here.  The one genuinely rounding-dependent branch of `math.Pow` (finite
base not in {0, 1, -1}, finite exponent not in {0, 1}, base positive or
exponent integral) is kept as an explicit function parameter `pf`; every
theorem about the rate calculation either holds for all values of that
parameter or never reaches that branch.
-/

/-- Euclid's algorithm with explicit structural fuel (the fuel `a + 1`
always suffices), so that it reduces inside the kernel. -/
def ngcdF : Nat → Nat → Nat → Nat
  | 0, _, b => b
  | _, 0, b => b
  | f + 1, a + 1, b => ngcdF f (b % (a + 1)) (a + 1)

/-- Greatest common divisor, kernel-computable. -/
def ngcd (a b : Nat) : Nat := ngcdF (a + 1) a b

/-- An exact rational: numerator and positive denominator.  (Mathlib's `ℚ`
normalizes through `Nat.gcd`, which the kernel cannot reduce; this
self-contained copy keeps every concrete computation checkable by
`decide`.)  All values built by the operations below are canonical —
positive denominator, reduced — and every test the embedded program
performs on them is phrased on `num`/`den` semantically, so no statement
depends on a choice of representative. -/
structure Frac where
  num : Int
  den : Nat
  deriving DecidableEq, Repr

namespace Frac

/-- Build the canonical representative of `n / d` (for `d ≠ 0`). -/
def norm (n d : Int) : Frac :=
  let s : Int := if d < 0 then -1 else 1
  let n1 : Int := s * n
  let d1 : Nat := (s * d).toNat
  let g : Nat := ngcd n1.natAbs d1
  ⟨n1 / (g : Int), d1 / g⟩

/-- The rational `n`. -/
def ofInt (n : Int) : Frac := ⟨n, 1⟩

/-- Exact subtraction. -/
def sub (a b : Frac) : Frac :=
  norm (a.num * b.den - b.num * a.den) ((a.den : Int) * b.den)

/-- Exact multiplication. -/
def mul (a b : Frac) : Frac :=
  norm (a.num * b.num) ((a.den : Int) * b.den)

/-- Exact division (the divisor's numerator is nonzero whenever the
caller reaches this). -/
def div (a b : Frac) : Frac :=
  norm (a.num * b.den) ((a.den : Int) * b.num)

/-- Whether the value is an integer. -/
def isInt (q : Frac) : Bool := q.num % (q.den : Int) == 0

/-- Whether the value is an odd integer. -/
def isOddInt (q : Frac) : Bool :=
  q.isInt && (q.num / (q.den : Int)) % 2 != 0

/-- Whether the absolute value exceeds 1. -/
def absGt1 (q : Frac) : Bool := (q.den : Int) < (q.num.natAbs : Int)

end Frac

/-- Go `float64` values as used by this program: `NaN`, `+Inf`, `-Inf`,
or an exact finite value. -/
inductive GFloat where
  | nan : GFloat
  | inf : GFloat
  | neginf : GFloat
  | fin : Frac → GFloat
  deriving DecidableEq, Repr

namespace GFloat

/-- Whether a float is the (semantic) value 0. -/
def isZero : GFloat → Bool
  | fin q => q.num == 0
  | _ => false

/-- Whether a float is the (semantic) value 1. -/
def isOne : GFloat → Bool
  | fin q => q.num == (q.den : Int)
  | _ => false

/-- Whether a value is finite (neither `NaN` nor infinite). -/
def isFinite : GFloat → Bool
  | fin _ => true
  | _ => false

/-- Go `float64` division (`a / b`), with IEEE special cases; the sign of a
zero is collapsed, so `x / 0` uses the sign of `x` alone. -/
def div : GFloat → GFloat → GFloat
  | nan, _ => nan
  | _, nan => nan
  | fin a, fin b =>
      if b.num = 0 then (if 0 < a.num then inf else if a.num < 0 then neginf else nan)
      else fin (Frac.div a b)
  | fin _, inf => fin (Frac.ofInt 0)
  | fin _, neginf => fin (Frac.ofInt 0)
  | inf, fin b => if 0 ≤ b.num then inf else neginf
  | neginf, fin b => if 0 ≤ b.num then neginf else inf
  | inf, inf => nan
  | inf, neginf => nan
  | neginf, inf => nan
  | neginf, neginf => nan

/-- Go `float64` subtraction (`a - b`), with IEEE special cases. -/
def sub : GFloat → GFloat → GFloat
  | nan, _ => nan
  | _, nan => nan
  | fin a, fin b => fin (Frac.sub a b)
  | fin _, inf => neginf
  | fin _, neginf => inf
  | inf, fin _ => inf
  | neginf, fin _ => neginf
  | inf, inf => nan
  | neginf, neginf => nan
  | inf, neginf => inf
  | neginf, inf => neginf

/-- Go `float64` multiplication (`a * b`), with IEEE special cases. -/
def mul : GFloat → GFloat → GFloat
  | nan, _ => nan
  | _, nan => nan
  | fin a, fin b => fin (Frac.mul a b)
  | fin a, inf => if 0 < a.num then inf else if a.num < 0 then neginf else nan
  | fin a, neginf => if 0 < a.num then neginf else if a.num < 0 then inf else nan
  | inf, fin b => if 0 < b.num then inf else if b.num < 0 then neginf else nan
  | neginf, fin b => if 0 < b.num then neginf else if b.num < 0 then inf else nan
  | inf, inf => inf
  | neginf, neginf => inf
  | inf, neginf => neginf
  | neginf, inf => neginf

/-- Go's `math.Pow`, following the special cases documented in the `math`
package.  The only branch whose value depends on binary rounding — finite
base, finite exponent, no special case applies — is delegated to the
parameter `pf`. -/
def pow (pf : Frac → Frac → GFloat) (x y : GFloat) : GFloat :=
  if y.isZero then fin (Frac.ofInt 1)
  else if x.isOne then fin (Frac.ofInt 1)
  else if y.isOne then x
  else if x = nan ∨ y = nan then nan
  else
    match x, y with
    | fin a, fin b =>
        if a.num = 0 then (if b.num < 0 then inf else fin (Frac.ofInt 0))
        else if a.num < 0 ∧ ¬ b.isInt then nan
        else pf a b
    | fin a, inf =>
        if a.num = -(a.den : Int) then fin (Frac.ofInt 1)
        else if a.absGt1 then inf else fin (Frac.ofInt 0)
    | fin a, neginf =>
        if a.num = -(a.den : Int) then fin (Frac.ofInt 1)
        else if a.absGt1 then fin (Frac.ofInt 0) else inf
    | inf, fin b => if 0 < b.num then inf else fin (Frac.ofInt 0)
    | neginf, fin b =>
        if 0 < b.num then (if b.isOddInt then neginf else inf)
        else fin (Frac.ofInt 0)
    | inf, inf => inf
    | inf, neginf => fin (Frac.ofInt 0)
    | neginf, inf => inf
    | neginf, neginf => fin (Frac.ofInt 0)
    | nan, _ => nan
    | _, nan => nan

end GFloat

/-- A stand-in value for the rounding-dependent generic branch of
`math.Pow`.  Theorems that reach that branch quantify over the branch
function instead; closed witness statements instantiate it with this. -/
def unspecPow : Frac → Frac → GFloat := fun _ _ => GFloat.nan

/-- Go `time.Time` at second precision: proleptic Gregorian calendar
components.  (The program never manipulates sub-second precision in a way
any claim depends on.) -/
structure GoTime where
  year : Int
  month : Nat
  day : Nat
  hour : Nat
  minute : Nat
  second : Nat
  deriving DecidableEq, Repr

/-- Days from civil date to 1970-01-01 (Howard Hinnant's `days_from_civil`
algorithm, as used by every mainstream date library including Go's
`time`). -/
def daysFromCivil (y : Int) (m d : Nat) : Int :=
  let y1 : Int := if m ≤ 2 then y - 1 else y
  let era : Int := (if 0 ≤ y1 then y1 else y1 - 399) / 400
  let yoe : Int := y1 - era * 400
  let mp : Int := if m ≤ 2 then (m : Int) + 9 else (m : Int) - 3
  let doy : Int := (153 * mp + 2) / 5 + (d : Int) - 1
  let doe : Int := yoe * 365 + yoe / 4 - yoe / 100 + doy
  era * 146097 + doe - 719468

/-- Seconds since the Unix epoch; the model of the instant a Go `time.Time`
denotes, so that `t.Sub(u)` is `epochSecs t - epochSecs u` seconds. -/
def epochSecs (t : GoTime) : Int :=
  86400 * daysFromCivil t.year t.month t.day
    + 3600 * (t.hour : Int) + 60 * (t.minute : Int) + (t.second : Int)

/-- `const secondsPerYear = 365.25 * 24 * 60 * 60` from the source
(`31557600`, exactly representable). -/
def secondsPerYear : Frac := Frac.ofInt 31557600

/-- Two-digit zero-padded decimal, as Go's `02` / `06` layout fields. -/
def pad2 (n : Nat) : String :=
  if n < 10 then "0" ++ toString n else toString n

/-- Three-letter English month abbreviation (Go's `Jan` layout field). -/
def monthAbbr (m : Nat) : String :=
  (["Jan", "Feb", "Mar", "Apr", "May", "Jun",
    "Jul", "Aug", "Sep", "Oct", "Nov", "Dec"]).getD (m - 1) "???"

/-- `t.Format(humanDate)` with `const humanDate = "02-Jan-06"`:
zero-padded day, month abbreviation, year modulo 100. -/
def fmtHumanDate (t : GoTime) : String :=
  pad2 t.day ++ "-" ++ monthAbbr t.month ++ "-" ++ pad2 (t.year % 100).toNat

/-- Round to the nearest integer, ties to even — the rounding `fmt`'s
`%.2f` applies at the last kept decimal digit.  `f` is the floor of
`x = num / den`, and `rem2` is twice the fractional remainder scaled by
the denominator, compared against the denominator itself. -/
def roundHalfEven (x : Frac) : Int :=
  let f : Int := Int.fdiv x.num (x.den : Int)
  let rem2 : Int := 2 * (x.num - f * (x.den : Int))
  if (x.den : Int) < rem2 then f + 1
  else if rem2 < (x.den : Int) then f
  else if f % 2 = 0 then f else f + 1

/-- Go's `fmt.Fprintf` verb `%.2f`: two decimal places, `NaN` / `+Inf` /
`-Inf` for the non-finite values.  `|q| * 100` is formed without
normalizing, which `roundHalfEven` does not require. -/
def fmtF2 : GFloat → String
  | GFloat.nan => "NaN"
  | GFloat.inf => "+Inf"
  | GFloat.neginf => "-Inf"
  | GFloat.fin q =>
      let n : Nat := (roundHalfEven ⟨(q.num.natAbs : Int) * 100, q.den⟩).toNat
      let s : String := toString (n / 100) ++ "." ++ pad2 (n % 100)
      if q.num < 0 then "-" ++ s else s

/-- `type investment struct` from the source. -/
structure investment where
  Symbol : String
  Date : GoTime
  Total : GFloat
  Units : GFloat
  deriving DecidableEq, Repr

/-- `type performance struct` from the source. -/
structure performance where
  Symbol : String
  Price : GFloat
  CompoundInterest : GFloat
  Date : GoTime
  deriving DecidableEq, Repr

/-- The Go `map[string][]performance`, modelled as an association list:
lookup returns the first binding of a key, an absent key behaves as Go's
nil slice.  The claims never depend on an iteration order of this map (a
fact proved below), so the entry order of the list is irrelevant. -/
abbrev HistMap : Type := List (String × List performance)

/-- Go map indexing `conf.History[sym]`: `some` the bound slice, `none`
(Go: the nil slice) when the key is absent. -/
def lookupH (H : HistMap) (sym : String) : Option (List performance) :=
  match H with
  | [] => none
  | (k, v) :: t => if k = sym then some v else lookupH t sym

/-- Go map assignment `conf.History[sym] = v`: replace the binding in
place, or add one if the key is absent. -/
def setH (H : HistMap) (sym : String) (v : List performance) : HistMap :=
  match H with
  | [] => [(sym, v)]
  | (k, w) :: t => if k = sym then (sym, v) :: t else (k, w) :: setH t sym v

/-- Lines 264–266 of the source:
`hPerf := conf.History[i.Symbol]; hPerf = append(hPerf, perf);
conf.History[i.Symbol] = hPerf` — append at the end of the symbol's
history, starting from the empty slice when the key is absent. -/
def appendPerf (H : HistMap) (sym : String) (p : performance) : HistMap :=
  setH H sym ((lookupH H sym).getD [] ++ [p])

/-- `appendPerf` iterated over a list of records, oldest first. -/
def appendMany (H : HistMap) (sym : String) (ps : List performance) : HistMap :=
  ps.foldl (fun h p => appendPerf h sym p) H

/-- `type config struct` from the source. -/
structure config where
  Investments : List investment
  History : HistMap
  deriving DecidableEq, Repr

/-- `func currentRate(i investment, price float64) float64` from the
source, with the wall clock `now` passed explicitly and the generic branch
of `math.Pow` passed as `pf`:
`principal := i.Total / i.Units;
d := time.Now().Sub(i.Date).Seconds() / secondsPerYear;
r := 100 * (math.Pow(price/principal, 1/d) - 1)`. -/
def currentRate (pf : Frac → Frac → GFloat) (i : investment) (price : GFloat)
    (now : GoTime) : GFloat :=
  let principal := GFloat.div i.Total i.Units
  let d := GFloat.div (GFloat.fin (Frac.ofInt (epochSecs now - epochSecs i.Date)))
    (GFloat.fin secondsPerYear)
  GFloat.mul (GFloat.fin (Frac.ofInt 100))
    (GFloat.sub
      (GFloat.pow pf (GFloat.div price principal)
        (GFloat.div (GFloat.fin (Frac.ofInt 1)) d))
      (GFloat.fin (Frac.ofInt 1)))

/-- The calendar-day key the report deduplicates on:
`dateStr := h.Date.Format(humanDate)`. -/
def dayKey (r : performance) : String := fmtHumanDate r.Date

/-- The history line the report prints for one record:
`fmt.Fprintf(writer, "%s %.2f %%\n", dateStr, h.CompoundInterest)`. -/
def histLine (r : performance) : String :=
  dayKey r ++ " " ++ fmtF2 r.CompoundInterest ++ " %"

/-- The inner loop of `printAnalysis` (source lines 308–318), walking the
history newest-to-oldest (the argument is the reversed history) with the
`seen` set of already-printed day strings, emitting one line per new day. -/
def histLoop (seen : List String) : List performance → List String
  | [] => []
  | h :: t =>
      if dayKey h ∈ seen then histLoop seen t
      else histLine h :: histLoop (dayKey h :: seen) t

/-- The same walk, emitting the records themselves instead of their
printed lines: the deduplicated view of a history (the argument is the
reversed history). -/
def viewLoop (seen : List String) : List performance → List performance
  | [] => []
  | h :: t =>
      if dayKey h ∈ seen then viewLoop seen t
      else h :: viewLoop (dayKey h :: seen) t

/-- The deduplicated view of a raw (oldest-first) history: walk it
newest-to-oldest and keep each day's first record encountered. -/
def dedupView (hist : List performance) : List performance :=
  viewLoop [] hist.reverse

/-- The outer loop of `func printAnalysis(writer io.Writer, conf config)`
(source lines 301–321), one iteration per investment: print the
`"===%s %.2f %s ===\n"` header; if the symbol has no history, `continue`;
otherwise print the deduplicated history lines and a closing blank line.
Output is modelled as the list of emitted lines. -/
def printLoop (H : HistMap) : List investment → List String
  | [] => []
  | v :: rest =>
      ("===" ++ v.Symbol ++ " " ++ fmtF2 v.Total ++ " " ++ fmtHumanDate v.Date ++ " ===")
        :: match lookupH H v.Symbol with
           | none => printLoop H rest
           | some hist => histLoop [] hist.reverse ++ "" :: printLoop H rest

/-- `func printAnalysis` as a function from the config to the emitted
lines. -/
def printAnalysis (conf : config) : List String :=
  printLoop conf.History conf.Investments

/-- The header line of one report block, as the claims describe it. -/
def headerLine (v : investment) : String :=
  "===" ++ v.Symbol ++ " " ++ fmtF2 v.Total ++ " " ++ fmtHumanDate v.Date ++ " ==="

/-- One report block as the amended claim C5 describes it: the header, then
— only when the symbol has a stored history — the deduplicated view's
lines newest-first followed by a blank line. -/
def blockFor (H : HistMap) (v : investment) : List String :=
  headerLine v
    :: match lookupH H v.Symbol with
       | none => []
       | some hist => (dedupView hist).map histLine ++ [""]

/-- The error kinds the program surfaces (the spec's §7 names). -/
inductive Err where
  | malformedInput : Err
  | invalidDate : Err
  | invalidNumber : Err
  | quoteUnavailable : Err
  | configLoad : Err
  deriving DecidableEq, Repr

instance {ε α : Type} [DecidableEq ε] [DecidableEq α] : DecidableEq (Except ε α) :=
  fun x y =>
    match x, y with
    | Except.error e, Except.error f =>
        if h : e = f then isTrue (by rw [h]) else isFalse (by simp [h])
    | Except.ok a, Except.ok b =>
        if h : a = b then isTrue (by rw [h]) else isFalse (by simp [h])
    | Except.error _, Except.ok _ => isFalse (by simp)
    | Except.ok _, Except.error _ => isFalse (by simp)

/-- A numeric field of Go's reference-layout style `1` / `2`: one digit, or
two when a second digit follows (how `time.Parse` reads a non-padded month
or day). Returns the value and the unconsumed characters. -/
def readUpTo2Digits : List Char → Option (Nat × List Char)
  | [] => none
  | c :: rest =>
      if c.isDigit then
        match rest with
        | c2 :: rest2 =>
            if c2.isDigit then some ((c.toNat - 48) * 10 + (c2.toNat - 48), rest2)
            else some (c.toNat - 48, rest)
        | [] => some (c.toNat - 48, [])
      else none

/-- The four-digit year field of layout `2006`. -/
def read4Digits : List Char → Option (Nat × List Char)
  | a :: b :: c :: d :: rest =>
      if a.isDigit && b.isDigit && c.isDigit && d.isDigit then
        some ((((a.toNat - 48) * 10 + (b.toNat - 48)) * 10 + (c.toNat - 48)) * 10
          + (d.toNat - 48), rest)
      else none
  | _ => none

/-- A literal `/` separator of the layout. -/
def expectSlash : List Char → Option (List Char)
  | '/' :: rest => some rest
  | _ => none

/-- Gregorian leap-year rule, as Go's `time` package applies it. -/
def isLeap (y : Int) : Bool :=
  y % 4 = 0 && (!(y % 100 = 0) || y % 400 = 0)

/-- Days in a month, as `time.Parse` uses to reject out-of-range days. -/
def daysInMonth (y : Int) (m : Nat) : Nat :=
  if m = 2 then (if isLeap y then 29 else 28)
  else if m = 4 ∨ m = 6 ∨ m = 9 ∨ m = 11 then 30
  else 31

/-- `time.Parse(mmddyy, s)` with `const mmddyy = "1/2/2006"`: month and day
of one or two digits, a four-digit year, `/` separators, nothing trailing;
month and day must be in calendar range.  The parsed instant has the zero
time of day (and Go's UTC location).  (Hex or signed year forms are not in
the layout and are rejected, as Go does.) -/
def parseGoDate (s : String) : Option GoTime :=
  (readUpTo2Digits s.toList).bind fun (mo, r1) =>
    (expectSlash r1).bind fun r2 =>
      (readUpTo2Digits r2).bind fun (da, r3) =>
        (expectSlash r3).bind fun r4 =>
          (read4Digits r4).bind fun (yr, r5) =>
            if r5 = [] ∧ 1 ≤ mo ∧ mo ≤ 12 ∧ 1 ≤ da ∧ da ≤ daysInMonth (yr : Int) mo
            then some ⟨(yr : Int), mo, da, 0, 0, 0⟩
            else none

/-- Numeric value of a digit string. -/
def digitsVal (cs : List Char) : Nat :=
  cs.foldl (fun a c => a * 10 + (c.toNat - 48)) 0

/-- The exponent suffix of a decimal float: empty, or `e`/`E`, an optional
sign and at least one digit, consuming the whole rest of the string. -/
def parseExpSuffix : List Char → Option Int
  | [] => some 0
  | c :: rest =>
      if c = 'e' ∨ c = 'E' then
        match rest with
        | '+' :: ds => if ds ≠ [] ∧ ds.all Char.isDigit then some (digitsVal ds) else none
        | '-' :: ds => if ds ≠ [] ∧ ds.all Char.isDigit then some (-(digitsVal ds : Int)) else none
        | ds => if ds ≠ [] ∧ ds.all Char.isDigit then some (digitsVal ds) else none
      else none

/-- `strconv.ParseFloat(s, 64)`: optional sign; `inf`, `infinity` or `nan`
in any letter case; or a decimal mantissa (digits with an optional decimal
point, at least one digit overall) with an optional exponent.  The finite
value is kept exact rather than rounded to a `float64`; no claim depends on
the rounding.  (Go's hexadecimal-float and digit-group-underscore forms are
left out of the model; no claim mentions them.) -/
def parseGoFloat (s : String) : Option GFloat :=
  let cs := s.toList
  let (neg, cs1) : Bool × List Char :=
    match cs with
    | '+' :: r => (false, r)
    | '-' :: r => (true, r)
    | r => (false, r)
  let low := String.mk (cs1.map Char.toLower)
  if low = "inf" ∨ low = "infinity" then
    some (if neg then GFloat.neginf else GFloat.inf)
  else if low = "nan" then some GFloat.nan
  else
    let (ip, r1) := cs1.span Char.isDigit
    let (fp, rExp) : List Char × List Char :=
      match r1 with
      | '.' :: r => r.span Char.isDigit
      | _ => ([], r1)
    if ip = [] ∧ fp = [] then none
    else
      (parseExpSuffix rExp).map fun e =>
        let mantNum : Int := (digitsVal ip : Int) * (10 ^ fp.length : Nat) + (digitsVal fp : Int)
        let n : Int := (if neg then -1 else 1) * mantNum
          * (if 0 ≤ e then ((10 ^ e.toNat : Nat) : Int) else 1)
        let d : Int := ((10 ^ fp.length : Nat) : Int)
          * (if 0 ≤ e then 1 else ((10 ^ (-e).toNat : Nat) : Int))
        GFloat.fin (Frac.norm n d)

/-- Go's `strings.Split(s, ",")` on the character list: the (possibly
empty) fields between the commas; the empty string yields one empty
field. -/
def splitOnComma : List Char → List (List Char)
  | [] => [[]]
  | c :: rest =>
      if c = ',' then [] :: splitOnComma rest
      else
        match splitOnComma rest with
        | h :: t => (c :: h) :: t
        | [] => [[c]]

/-- The fields of `strings.Split(iStr, ",")`, as strings. -/
def splitFields (iStr : String) : List String :=
  (splitOnComma iStr.toList).map (fun cs => String.mk cs)

/-- `func parseInvestmentLine(iStr string) (investment, error)` from the
source: split on `,`; reject a field count other than 4; parse the date,
then the two floats; the symbol is the first field verbatim. -/
def parseInvestmentLine (iStr : String) : Except Err investment :=
  match splitFields iStr with
  | [sym, dateS, totalS, unitsS] =>
      match parseGoDate dateS with
      | none => Except.error Err.invalidDate
      | some t =>
          match parseGoFloat totalS with
          | none => Except.error Err.invalidNumber
          | some total =>
              match parseGoFloat unitsS with
              | none => Except.error Err.invalidNumber
              | some units => Except.ok ⟨sym, t, total, units⟩
  | _ => Except.error Err.malformedInput

/-- The persisted `config.json`, as the program can observe it: absent (not
an error: an empty config), present with a decoded config, or unreadable /
undecodable. -/
inductive FileState where
  | absent : FileState
  | present : config → FileState
  | corrupt : FileState
  deriving DecidableEq, Repr

/-- `func parseConfig(file string) (config, error)`: an absent file decodes
to the zero config; an unreadable or malformed one is an error.  (A decoded
nil `History` map is initialised to the empty map at the top of `analysis`;
in this model the empty `HistMap` already plays that role.) -/
def parseConfigF : FileState → Except Err config
  | FileState.absent => Except.ok ⟨[], []⟩
  | FileState.present c => Except.ok c
  | FileState.corrupt => Except.error Err.configLoad

/-- `func addInvestment(iStr string, confFile string) error`: load the
config, parse the line, append the new investment at the end, write the
config back.  Returns the final file state and the error, if any; any error
is returned before the write, leaving the file state as it was. -/
def addInvestment (iStr : String) (fs : FileState) : FileState × Option Err :=
  match parseConfigF fs with
  | Except.error e => (fs, some e)
  | Except.ok conf =>
      match parseInvestmentLine iStr with
      | Except.error e => (fs, some e)
      | Except.ok i =>
          (FileState.present ⟨conf.Investments ++ [i], conf.History⟩, none)

/-- The loop body of `func analysis` (source lines 252–267), over the
remaining investments: fetch the price from the external provider `quotes`
(`yquotes.GetPrice(i.Symbol)`, its `.Last` field), abort on a provider
error, otherwise compute the rate, build the `performance` stamped `now`,
and append it to the symbol's history. -/
def analysisLoop (pf : Frac → Frac → GFloat) (now : GoTime)
    (quotes : String → Except Unit GFloat) (H : HistMap) :
    List investment → Except Err HistMap
  | [] => Except.ok H
  | i :: rest =>
      match quotes i.Symbol with
      | Except.error _ => Except.error Err.quoteUnavailable
      | Except.ok p =>
          let r := currentRate pf i p now
          analysisLoop pf now quotes
            (appendPerf H i.Symbol ⟨i.Symbol, p, r, now⟩) rest

/-- `func analysis(confFile string) error`: load the config, process every
investment, and only then write the updated config back and render the
report (which the caller hands to the notifier).  On any error the file
state is returned unchanged and no report is produced.  The model takes
the write as succeeding; a write failure would only add another
no-report error path. -/
def analysisRun (pf : Frac → Frac → GFloat) (now : GoTime)
    (quotes : String → Except Unit GFloat) (fs : FileState) :
    FileState × Except Err (List String) :=
  match parseConfigF fs with
  | Except.error e => (fs, Except.error e)
  | Except.ok conf =>
      match analysisLoop pf now quotes conf.History conf.Investments with
      | Except.error e => (fs, Except.error e)
      | Except.ok H2 =>
          (FileState.present ⟨conf.Investments, H2⟩,
            Except.ok (printAnalysis ⟨conf.Investments, H2⟩))

/-! ### Shared sample data for closed witness statements -/

/-- Sample investment "A" (no stored history in `confAB`). -/
def invA : investment := ⟨"A", ⟨2006, 1, 2, 0, 0, 0⟩, GFloat.fin ⟨1, 1⟩, GFloat.fin ⟨1, 1⟩⟩

/-- Sample investment "B" (one stored record in `confAB`). -/
def invB : investment := ⟨"B", ⟨2006, 1, 3, 0, 0, 0⟩, GFloat.fin ⟨2, 1⟩, GFloat.fin ⟨1, 1⟩⟩

/-- Sample performance record for "B". -/
def perfB : performance := ⟨"B", GFloat.fin ⟨7, 1⟩, GFloat.fin ⟨5, 1⟩, ⟨2006, 1, 3, 0, 0, 0⟩⟩

/-- Sample config: two investments, history only for the second. -/
def confAB : config := ⟨[invA, invB], [("B", [perfB])]⟩

/-- Three sample records for one symbol: two on 01-Mar-24 (morning and
evening), one on 02-Mar-24, appended in that order — the spec's
{D1, D1, D2} example. -/
def perf1 : performance := ⟨"X", GFloat.fin ⟨10, 1⟩, GFloat.fin ⟨1, 1⟩, ⟨2024, 3, 1, 10, 30, 0⟩⟩

/-- The second 01-Mar-24 record (the most recently appended for that day). -/
def perf2 : performance := ⟨"X", GFloat.fin ⟨11, 1⟩, GFloat.fin ⟨2, 1⟩, ⟨2024, 3, 1, 18, 0, 0⟩⟩

/-- The 02-Mar-24 record. -/
def perf3 : performance := ⟨"X", GFloat.fin ⟨12, 1⟩, GFloat.fin ⟨3, 1⟩, ⟨2024, 3, 2, 11, 0, 0⟩⟩

/-- The sample day-duplicated history {D1, D1, D2}. -/
def hist0 : List performance := [perf1, perf2, perf3]

/-! ### History-map lemmas and claim C7 -/

theorem lookupH_setH_self (H : HistMap) (s : String) (v : List performance) :
    lookupH (setH H s v) s = some v := by
  induction H with
  | nil => simp [setH, lookupH]
  | cons kv t ih =>
      obtain ⟨k, w⟩ := kv
      by_cases h : k = s <;> simp [setH, lookupH, h, ih]

theorem lookupH_setH_ne (H : HistMap) (s s2 : String) (v : List performance)
    (h : s2 ≠ s) : lookupH (setH H s v) s2 = lookupH H s2 := by
  induction H with
  | nil => simp [setH, lookupH, Ne.symm h]
  | cons kv t ih =>
      obtain ⟨k, w⟩ := kv
      by_cases hk : k = s
      · subst hk
        simp [setH, lookupH, Ne.symm h]
      · simp [setH, lookupH, hk, ih]

theorem lookupH_appendPerf_self (H : HistMap) (s : String) (p : performance) :
    lookupH (appendPerf H s p) s = some ((lookupH H s).getD [] ++ [p]) := by
  unfold appendPerf
  exact lookupH_setH_self ..

theorem lookupH_appendMany (H : HistMap) (s : String) (ps : List performance) :
    (lookupH (appendMany H s ps) s).getD [] = (lookupH H s).getD [] ++ ps := by
  induction ps generalizing H with
  | nil => simp [appendMany]
  | cons p ps ih =>
      have hstep : appendMany H s (p :: ps) = appendMany (appendPerf H s p) s ps := rfl
      rw [hstep, ih, lookupH_appendPerf_self]
      simp

/-- C7: `append(symbol, performance)` appends at the end of the symbol's
sequence, creating it when absent; other symbols' histories are untouched;
iterating it over a batch `ps` extends the raw history by exactly `ps`
(in particular, N appends onto an absent key give a raw history of length
exactly N, duplicate calendar days included, with every previous record
kept in place and unchanged). -/
theorem history_append_semantics (H : HistMap) (s s2 : String) (p : performance)
    (ps : List performance) :
    lookupH (appendPerf H s p) s = some ((lookupH H s).getD [] ++ [p])
  ∧ (s2 ≠ s → lookupH (appendPerf H s p) s2 = lookupH H s2)
  ∧ (lookupH (appendMany H s ps) s).getD [] = (lookupH H s).getD [] ++ ps
  ∧ (lookupH H s = none →
      ((lookupH (appendMany H s ps) s).getD []).length = ps.length) := by
  refine ⟨lookupH_appendPerf_self .., fun h => ?_, lookupH_appendMany .., fun h => ?_⟩
  · exact lookupH_setH_ne _ _ _ _ h
  · rw [lookupH_appendMany, h]
    simp

/-- Witness for C7 at concrete inputs: three appends of the {D1, D1, D2}
records onto an absent key yield exactly that three-record sequence, and a
different symbol's history is untouched. -/
theorem history_append_semantics_witness :
    lookupH (appendPerf [("B", [perfB])] "X" perf1) "X" = some [perf1]
  ∧ lookupH (appendPerf [("B", [perfB])] "X" perf1) "B" = some [perfB]
  ∧ (lookupH (appendMany [("B", [perfB])] "X" hist0) "X").getD [] = hist0
  ∧ ((lookupH (appendMany [("B", [perfB])] "X" hist0) "X").getD []).length = 3 := by
  have h := history_append_semantics [("B", [perfB])] "X" "B" perf1 hist0
  refine ⟨?_, ?_, ?_, ?_⟩
  · rw [h.1]; decide
  · rw [h.2.1 (by decide)]; decide
  · rw [h.2.2.1]; decide
  · rw [h.2.2.2 (by decide)]; decide

/-! ### Investment-line parsing: claims C8, C9 -/

/-- C8: an input whose comma-split yields a field count other than 4 is
rejected with the malformed-input error, producing no investment. -/
theorem parseInvestmentLine_field_count (s : String)
    (h : (splitFields s).length ≠ 4) :
    parseInvestmentLine s = Except.error Err.malformedInput := by
  unfold parseInvestmentLine
  rcases hl : splitFields s with _ | ⟨a, _ | ⟨b, _ | ⟨c, _ | ⟨d, _ | ⟨e, t⟩⟩⟩⟩⟩ <;>
    first
    | rfl
    | (rw [hl] at h; exact absurd rfl h)

/-- Witness for C8: a three-field line is rejected as malformed. -/
theorem parseInvestmentLine_field_count_witness :
    parseInvestmentLine "a,b,c" = Except.error Err.malformedInput :=
  parseInvestmentLine_field_count "a,b,c" (by decide)

/-- C9: a line splitting into exactly 4 fields whose date and float fields
parse succeeds, and the resulting investment carries the first field
verbatim as the symbol (no normalization and no range check — the witness
uses a lower-case symbol, a negative total and zero units) and the parsed
date, total and units. -/
theorem parseInvestmentLine_roundtrip (s a b c d : String) (t : GoTime)
    (x y : GFloat) (hs : splitFields s = [a, b, c, d])
    (hd : parseGoDate b = some t) (hx : parseGoFloat c = some x)
    (hy : parseGoFloat d = some y) :
    parseInvestmentLine s = Except.ok ⟨a, t, x, y⟩ := by
  unfold parseInvestmentLine
  rw [hs]
  simp [hd, hx, hy]

/-- Witness for C9: `"aapl,1/2/2006,-100.5,0"` parses to the investment
⟨"aapl", 2006-01-02, −100.5, 0⟩. -/
theorem parseInvestmentLine_roundtrip_witness :
    parseInvestmentLine "aapl,1/2/2006,-100.5,0" =
      Except.ok ⟨"aapl", ⟨2006, 1, 2, 0, 0, 0⟩, GFloat.fin ⟨-201, 2⟩, GFloat.fin ⟨0, 1⟩⟩ :=
  parseInvestmentLine_roundtrip "aapl,1/2/2006,-100.5,0" "aapl" "1/2/2006" "-100.5" "0"
    ⟨2006, 1, 2, 0, 0, 0⟩ (GFloat.fin ⟨-201, 2⟩) (GFloat.fin ⟨0, 1⟩)
    (by decide) (by decide) (by decide) (by decide)

/-! ### Adding an investment: claim C10 -/

/-- C10: the add operation is atomic and frame-preserving — a line that
fails to parse makes the operation return an error with the persisted
state untouched (whatever that state is), and a line that parses appends
exactly that one investment at the end of `investments`, leaving the
history and all previously stored investments unchanged. -/
theorem addInvestment_atomic (iStr : String) (fs : FileState) (c : config)
    (e : Err) (i : investment) :
    (parseInvestmentLine iStr = Except.error e →
      (addInvestment iStr fs).1 = fs ∧ (addInvestment iStr fs).2.isSome = true)
  ∧ (parseInvestmentLine iStr = Except.ok i →
      addInvestment iStr (FileState.present c) =
        (FileState.present ⟨c.Investments ++ [i], c.History⟩, none)) := by
  constructor
  · intro h
    cases fs <;> simp [addInvestment, parseConfigF, h]
  · intro h
    simp [addInvestment, parseConfigF, h]

/-- Witness for C10: a malformed line leaves the sample stored config
untouched and errors; a valid line appends exactly the parsed investment. -/
theorem addInvestment_atomic_witness :
    (addInvestment "bad" (FileState.present confAB)).1 = FileState.present confAB
  ∧ (addInvestment "bad" (FileState.present confAB)).2.isSome = true
  ∧ addInvestment "aapl,1/2/2006,-100.5,0" (FileState.present confAB) =
      (FileState.present
        ⟨confAB.Investments ++
          [⟨"aapl", ⟨2006, 1, 2, 0, 0, 0⟩, GFloat.fin ⟨-201, 2⟩, GFloat.fin ⟨0, 1⟩⟩],
          confAB.History⟩, none) := by
  have h1 := (addInvestment_atomic "bad" (FileState.present confAB) confAB
    Err.malformedInput invA).1 (by decide)
  have h2 := (addInvestment_atomic "aapl,1/2/2006,-100.5,0" (FileState.present confAB)
    confAB Err.malformedInput
    ⟨"aapl", ⟨2006, 1, 2, 0, 0, 0⟩, GFloat.fin ⟨-201, 2⟩, GFloat.fin ⟨0, 1⟩⟩).2 (by decide)
  exact ⟨h1.1, h1.2, h2⟩

/-! ### The deduplicated rendering walk: claim C1 -/

theorem histLoop_eq_map (l : List performance) :
    ∀ seen, histLoop seen l = (viewLoop seen l).map histLine := by
  induction l with
  | nil => intro seen; rfl
  | cons h t ih =>
      intro seen
      by_cases hc : dayKey h ∈ seen <;> simp [histLoop, viewLoop, hc, ih]

theorem viewLoop_find (l : List performance) :
    ∀ seen r, r ∈ viewLoop seen l →
      dayKey r ∉ seen ∧ l.find? (fun q => dayKey q == dayKey r) = some r := by
  induction l with
  | nil => intro seen r hr; simp [viewLoop] at hr
  | cons h t ih =>
      intro seen r hr
      by_cases hc : dayKey h ∈ seen
      · rw [viewLoop, if_pos hc] at hr
        obtain ⟨h1, h2⟩ := ih seen r hr
        have hbe : (dayKey h == dayKey r) = false :=
          beq_eq_false_iff_ne.mpr fun he => h1 (he ▸ hc)
        refine ⟨h1, ?_⟩
        simp [List.find?, hbe, h2]
      · rw [viewLoop, if_neg hc] at hr
        rcases List.mem_cons.1 hr with rfl | hr2
        · exact ⟨hc, by simp [List.find?]⟩
        · obtain ⟨h1, h2⟩ := ih _ r hr2
          rw [List.mem_cons] at h1
          push_neg at h1
          refine ⟨h1.2, ?_⟩
          have hbe : (dayKey h == dayKey r) = false :=
            beq_eq_false_iff_ne.mpr fun he => h1.1 he.symm
          simp [List.find?, hbe, h2]

theorem viewLoop_covers (l : List performance) :
    ∀ seen q, q ∈ l → dayKey q ∉ seen →
      ∃ r ∈ viewLoop seen l, dayKey r = dayKey q := by
  induction l with
  | nil => intro seen q hq; simp at hq
  | cons h t ih =>
      intro seen q hq hs
      by_cases hc : dayKey h ∈ seen
      · rcases List.mem_cons.1 hq with rfl | hq2
        · exact absurd hc hs
        · obtain ⟨r, hr, he⟩ := ih seen q hq2 hs
          exact ⟨r, by rw [viewLoop, if_pos hc]; exact hr, he⟩
      · by_cases hd : dayKey q = dayKey h
        · exact ⟨h, by rw [viewLoop, if_neg hc]; exact List.mem_cons_self .., hd.symm⟩
        · rcases List.mem_cons.1 hq with rfl | hq2
          · exact absurd rfl hd
          · have hs2 : dayKey q ∉ dayKey h :: seen := by
              rw [List.mem_cons]
              push_neg
              exact ⟨hd, hs⟩
            obtain ⟨r, hr, he⟩ := ih _ q hq2 hs2
            exact ⟨r, by rw [viewLoop, if_neg hc]; exact List.mem_cons_of_mem _ hr, he⟩

theorem viewLoop_pairwise (l : List performance) :
    ∀ seen, (viewLoop seen l).Pairwise (fun a b => dayKey a ≠ dayKey b) := by
  induction l with
  | nil => intro seen; simp [viewLoop]
  | cons h t ih =>
      intro seen
      by_cases hc : dayKey h ∈ seen
      · rw [viewLoop, if_pos hc]
        exact ih seen
      · rw [viewLoop, if_neg hc, List.pairwise_cons]
        refine ⟨fun b hb => ?_, ih _⟩
        have h1 := (viewLoop_find t _ b hb).1
        rw [List.mem_cons] at h1
        push_neg at h1
        exact fun he => h1.1 he.symm

/-- C1: rendering a symbol's history walks the sequence newest-to-oldest
(the reversed list) and prints exactly the lines of the deduplicated view
`dedupView`; every record of the view comes from the stored history (the
walk is read-only — nothing is fabricated and the store, being an argument
of a pure function, is not mutated); each emitted record is the one
`find?` locates first in the newest-to-oldest walk for its calendar day —
i.e. the most recently appended record of that day; every stored record's
day is represented; and no two emitted records share a calendar day. -/
theorem historyRender_dedup (hist : List performance) :
    histLoop [] hist.reverse = (dedupView hist).map histLine
  ∧ (∀ r ∈ dedupView hist, r ∈ hist ∧
      hist.reverse.find? (fun q => dayKey q == dayKey r) = some r)
  ∧ (∀ q ∈ hist, ∃ r ∈ dedupView hist, dayKey r = dayKey q)
  ∧ (dedupView hist).Pairwise (fun a b => dayKey a ≠ dayKey b) := by
  refine ⟨histLoop_eq_map _ _, fun r hr => ?_, fun q hq => ?_, viewLoop_pairwise _ _⟩
  · obtain ⟨h1, h2⟩ := viewLoop_find _ _ r hr
    exact ⟨List.mem_reverse.1 (List.mem_of_find?_eq_some h2), h2⟩
  · exact viewLoop_covers _ _ q (List.mem_reverse.2 hq) (by simp)

/-- Witness for C1 on the {D1, D1, D2} sample history: the second D1
record is the one the newest-to-oldest walk finds first for day D1 (the
most recently appended), and day D1 is represented in the view even though
its first record is skipped. -/
theorem historyRender_dedup_witness :
    (perf2 ∈ hist0 ∧ hist0.reverse.find? (fun q => dayKey q == dayKey perf2) = some perf2)
  ∧ (∃ r ∈ dedupView hist0, dayKey r = dayKey perf1) := by
  have h := historyRender_dedup hist0
  exact ⟨h.2.1 perf2 (by decide), h.2.2.1 perf1 (by decide)⟩

/-! ### Report structure: claims C5 and C6 -/

theorem printLoop_eq_join (H : HistMap) (l : List investment) :
    printLoop H l = (l.map (blockFor H)).flatten := by
  induction l with
  | nil => rfl
  | cons v rest ih =>
      cases hl : lookupH H v.Symbol with
      | none => simp [printLoop, blockFor, headerLine, hl, ih]
      | some hist =>
          simp [printLoop, blockFor, headerLine, hl, ih, dedupView, histLoop_eq_map]

theorem printLoop_congr (l : List investment) :
    ∀ H1 H2 : HistMap, (∀ v ∈ l, lookupH H1 v.Symbol = lookupH H2 v.Symbol) →
      printLoop H1 l = printLoop H2 l := by
  induction l with
  | nil => intro H1 H2 _; rfl
  | cons v rest ih =>
      intro H1 H2 h
      have hv := h v (List.mem_cons_self ..)
      have hr := ih H1 H2 (fun w hw => h w (List.mem_cons_of_mem _ hw))
      cases hl : lookupH H2 v.Symbol with
      | none => simp [printLoop, hv, hl, hr]
      | some hist => simp [printLoop, hv, hl, hr]

/-- C6: the report is exactly one block per investment, concatenated in
the stored order of `config.investments` (no sorting or reordering), and
its content depends on the history mapping only through lookups at those
investments' symbols — never on the mapping's own entry order. -/
theorem printAnalysis_investment_order (conf : config) (H2 : HistMap) :
    printAnalysis conf = (conf.Investments.map (blockFor conf.History)).flatten
  ∧ ((∀ v ∈ conf.Investments, lookupH H2 v.Symbol = lookupH conf.History v.Symbol) →
      printAnalysis ⟨conf.Investments, H2⟩ = printAnalysis conf) :=
  ⟨printLoop_eq_join .., fun h => printLoop_congr _ H2 conf.History h⟩

/-- Witness for C6: reordering and extending the history mapping's entries
without changing the lookups at the stored symbols leaves the report
unchanged. -/
theorem printAnalysis_investment_order_witness :
    printAnalysis ⟨confAB.Investments, [("C", [perfB]), ("B", [perfB])]⟩ =
      printAnalysis confAB :=
  (printAnalysis_investment_order confAB [("C", [perfB]), ("B", [perfB])]).2 (by decide)

/-- Counterexample to C5 as stated: in the sample config the first block
(symbol "A", no history) is followed immediately by the second block's
header with no separating blank line, and the history line ends in
`" %"` — a space before the percent sign — not in the claimed
`"<date> <rate>%"` shape. -/
theorem printAnalysis_format_cex :
    printAnalysis confAB =
      ["===A 1.00 02-Jan-06 ===", "===B 2.00 03-Jan-06 ===", "03-Jan-06 5.00 %", ""]
  ∧ (printAnalysis confAB)[1]? ≠ some ""
  ∧ (printAnalysis confAB)[2]? ≠
      some (fmtHumanDate perfB.Date ++ " " ++ fmtF2 perfB.CompoundInterest ++ "%") :=
  ⟨by decide, by decide, by decide⟩

/-- C5 (amended): each block begins with the `===`-decorated header
carrying the symbol, the total with 2 decimals and the `02-Jan-06`-style
date; each history line is `"<date> <rate with 2 decimals> %"` (with a
space before the percent sign); a blank line closes each block that has
history, so consecutive blocks are separated by a blank line except right
after a history-less block, which prints only its header. -/
theorem printAnalysis_format (conf : config) (v : investment) (r : performance) :
    printAnalysis conf = (conf.Investments.map (blockFor conf.History)).flatten
  ∧ headerLine v =
      "===" ++ v.Symbol ++ " " ++ fmtF2 v.Total ++ " " ++ fmtHumanDate v.Date ++ " ==="
  ∧ histLine r = fmtHumanDate r.Date ++ " " ++ fmtF2 r.CompoundInterest ++ " %"
  ∧ blockFor conf.History v =
      headerLine v ::
        (match lookupH conf.History v.Symbol with
         | none => []
         | some hist => (dedupView hist).map histLine ++ [""]) :=
  ⟨printLoop_eq_join .., rfl, rfl, rfl⟩

/-! ### The analysis run: claim C2 -/

theorem analysisLoop_quote_failure (pf : Frac → Frac → GFloat) (now : GoTime)
    (quotes : String → Except Unit GFloat) (l1 l2 : List investment)
    (i : investment) (hq : quotes i.Symbol = Except.error ()) :
    ∀ H : HistMap,
      analysisLoop pf now quotes H (l1 ++ i :: l2) = Except.error Err.quoteUnavailable := by
  induction l1 with
  | nil => intro H; simp [analysisLoop, hq]
  | cons j t ih =>
      intro H
      cases hj : quotes j.Symbol with
      | error e => simp [analysisLoop, hj]
      | ok p =>
          simp only [List.cons_append, analysisLoop, hj]
          exact ih _

/-- C2: if fetching the price of any investment fails, the whole run
aborts with the quote error: the persisted file state is returned
untouched (nothing is written, since persistence is requested only after
the loop finishes cleanly) and no report is produced — for every possible
tail of later investments, whose quotes are never consulted. -/
theorem analysisRun_abort_on_quote_failure (pf : Frac → Frac → GFloat)
    (now : GoTime) (quotes : String → Except Unit GFloat) (fs : FileState)
    (conf : config) (l1 l2 : List investment) (i : investment)
    (hc : parseConfigF fs = Except.ok conf)
    (hi : conf.Investments = l1 ++ i :: l2)
    (hq : quotes i.Symbol = Except.error ()) :
    analysisRun pf now quotes fs = (fs, Except.error Err.quoteUnavailable) := by
  have hl := analysisLoop_quote_failure pf now quotes l1 l2 i hq conf.History
  simp [analysisRun, hc, hi, hl]

/-- Witness for C2: with three stored investments and a provider that
fails on the middle symbol "B", the run returns the stored state unchanged
and the quote error (the spec's three-investment vignette). -/
theorem analysisRun_abort_on_quote_failure_witness :
    analysisRun unspecPow ⟨2024, 3, 2, 0, 0, 0⟩
      (fun s => if s = "B" then Except.error () else Except.ok (GFloat.fin ⟨42, 1⟩))
      (FileState.present ⟨[invA, invB, ⟨"C", ⟨2006, 1, 4, 0, 0, 0⟩,
        GFloat.fin ⟨3, 1⟩, GFloat.fin ⟨1, 1⟩⟩], []⟩) =
      (FileState.present ⟨[invA, invB, ⟨"C", ⟨2006, 1, 4, 0, 0, 0⟩,
        GFloat.fin ⟨3, 1⟩, GFloat.fin ⟨1, 1⟩⟩], []⟩, Except.error Err.quoteUnavailable) :=
  analysisRun_abort_on_quote_failure unspecPow ⟨2024, 3, 2, 0, 0, 0⟩ _ _
    ⟨[invA, invB, ⟨"C", ⟨2006, 1, 4, 0, 0, 0⟩, GFloat.fin ⟨3, 1⟩, GFloat.fin ⟨1, 1⟩⟩], []⟩
    [invA] [⟨"C", ⟨2006, 1, 4, 0, 0, 0⟩, GFloat.fin ⟨3, 1⟩, GFloat.fin ⟨1, 1⟩⟩] invB
    rfl rfl (by decide)

/-! ### The rate calculation: claims C3 and C4 -/

/-- C3: the computed rate is literally
`100 * ((price / (total/units)) ^ (1 / elapsedYears) - 1)` in the float
semantics, with `elapsedYears` the seconds between `now` and the purchase
date divided by `365.25 * 86400` — uniformly, for degenerate inputs too
(no guard anywhere).  The remaining conjuncts pin the degenerate cases the
spec calls out, none of which reaches the rounding-dependent branch of
`pow`: a negative base with fractional exponent (price −2 against
principal 1 held exactly two years) yields NaN; total = units = 0 makes
the principal 0/0 = NaN and the rate NaN; elapsedYears = 0 with
price/principal = 2 yields +Inf — each returned as-is. -/
theorem currentRate_formula (pf : Frac → Frac → GFloat) (i : investment)
    (price : GFloat) (now : GoTime) :
    currentRate pf i price now =
      GFloat.mul (GFloat.fin (Frac.ofInt 100))
        (GFloat.sub
          (GFloat.pow pf (GFloat.div price (GFloat.div i.Total i.Units))
            (GFloat.div (GFloat.fin (Frac.ofInt 1))
              (GFloat.div (GFloat.fin (Frac.ofInt (epochSecs now - epochSecs i.Date)))
                (GFloat.fin secondsPerYear))))
          (GFloat.fin (Frac.ofInt 1)))
  ∧ currentRate pf ⟨"X", ⟨2000, 1, 1, 0, 0, 0⟩, GFloat.fin ⟨1, 1⟩, GFloat.fin ⟨1, 1⟩⟩
      (GFloat.fin ⟨-2, 1⟩) ⟨2001, 12, 31, 12, 0, 0⟩ = GFloat.nan
  ∧ currentRate pf ⟨"X", ⟨2000, 1, 1, 0, 0, 0⟩, GFloat.fin ⟨0, 1⟩, GFloat.fin ⟨0, 1⟩⟩
      (GFloat.fin ⟨5, 1⟩) ⟨2001, 12, 31, 12, 0, 0⟩ = GFloat.nan
  ∧ currentRate pf ⟨"X", ⟨2006, 1, 2, 0, 0, 0⟩, GFloat.fin ⟨10, 1⟩, GFloat.fin ⟨1, 1⟩⟩
      (GFloat.fin ⟨20, 1⟩) ⟨2006, 1, 2, 0, 0, 0⟩ = GFloat.inf :=
  ⟨rfl, rfl, rfl, rfl⟩

/-- The value of the rate when the elapsed time is zero, as a function of
the ratio `price / principal`: NaN for a NaN ratio, 0 for ratio ±1,
+Inf when the magnitude exceeds 1 (including infinite ratios), and the
finite −100 when the magnitude is below 1. -/
def rateZeroElapsed : GFloat → GFloat
  | GFloat.nan => GFloat.nan
  | GFloat.inf => GFloat.inf
  | GFloat.neginf => GFloat.inf
  | GFloat.fin q =>
      if q.num = (q.den : Int) ∨ q.num = -(q.den : Int) then GFloat.fin (Frac.ofInt 0)
      else if (q.den : Int) < (q.num.natAbs : Int) then GFloat.inf
      else GFloat.fin (Frac.ofInt (-100))

theorem pow_inf_rate (pf : Frac → Frac → GFloat) (x : GFloat) :
    GFloat.mul (GFloat.fin (Frac.ofInt 100))
      (GFloat.sub (GFloat.pow pf x GFloat.inf) (GFloat.fin (Frac.ofInt 1))) =
      rateZeroElapsed x := by
  cases x with
  | nan => rfl
  | inf => rfl
  | neginf => rfl
  | fin q =>
      by_cases h1 : q.num = (q.den : Int)
      · have e1 : GFloat.mul (GFloat.fin (Frac.ofInt 100))
            (GFloat.sub (GFloat.fin (Frac.ofInt 1)) (GFloat.fin (Frac.ofInt 1))) =
            GFloat.fin (Frac.ofInt 0) := by decide
        simp [GFloat.pow, GFloat.isZero, GFloat.isOne, h1, rateZeroElapsed, e1]
      · by_cases h2 : q.num = -(q.den : Int)
        · have e1 : GFloat.mul (GFloat.fin (Frac.ofInt 100))
              (GFloat.sub (GFloat.fin (Frac.ofInt 1)) (GFloat.fin (Frac.ofInt 1))) =
              GFloat.fin (Frac.ofInt 0) := by decide
          simp [GFloat.pow, GFloat.isZero, GFloat.isOne, h1, h2, rateZeroElapsed, e1]
        · by_cases h3 : (q.den : Int) < |q.num|
          · have e2 : GFloat.mul (GFloat.fin (Frac.ofInt 100))
                (GFloat.sub GFloat.inf (GFloat.fin (Frac.ofInt 1))) = GFloat.inf := by decide
            simp [GFloat.pow, GFloat.isZero, GFloat.isOne, Frac.absGt1, h1, h2, h3,
              rateZeroElapsed, e2]
          · have e3 : GFloat.mul (GFloat.fin (Frac.ofInt 100))
                (GFloat.sub (GFloat.fin (Frac.ofInt 0)) (GFloat.fin (Frac.ofInt 1))) =
                GFloat.fin (Frac.ofInt (-100)) := by decide
            simp [GFloat.pow, GFloat.isZero, GFloat.isOne, Frac.absGt1, h1, h2, h3,
              rateZeroElapsed, e3]

/-- Counterexample to C4 as stated: an investment bought at the current
instant (elapsedYears exactly 0) with principal 10 and observed price 5
gets the finite rate −100 (IEEE `pow(1/2, +Inf) = +0`), so the rate at
zero elapsed time is not always non-finite. -/
theorem currentRate_zero_elapsed_cex :
    currentRate unspecPow ⟨"A", ⟨2006, 1, 2, 0, 0, 0⟩, GFloat.fin ⟨100, 1⟩, GFloat.fin ⟨10, 1⟩⟩
      (GFloat.fin ⟨5, 1⟩) ⟨2006, 1, 2, 0, 0, 0⟩ = GFloat.fin ⟨-100, 1⟩
  ∧ GFloat.isFinite
      (currentRate unspecPow ⟨"A", ⟨2006, 1, 2, 0, 0, 0⟩, GFloat.fin ⟨100, 1⟩, GFloat.fin ⟨10, 1⟩⟩
        (GFloat.fin ⟨5, 1⟩) ⟨2006, 1, 2, 0, 0, 0⟩) = true :=
  ⟨by decide, by decide⟩

/-- C4 (amended): when the purchase date equals the wall-clock instant
(elapsedYears = 0), the exponent `1/0` is +Inf and the rate is exactly
`rateZeroElapsed (price / principal)`: non-finite exactly when the ratio
is NaN (rate NaN) or has magnitude above 1 (rate +Inf); a ratio of ±1
gives the finite 0 and a magnitude below 1 the finite −100.  The
computation never crashes (the function is total) and never clamps: the
infinite and NaN outcomes are returned as such. -/
theorem currentRate_zero_elapsed (pf : Frac → Frac → GFloat) (i : investment)
    (price : GFloat) (now : GoTime) (h : i.Date = now) :
    currentRate pf i price now =
      rateZeroElapsed (GFloat.div price (GFloat.div i.Total i.Units)) := by
  subst h
  simp only [currentRate, sub_self]
  have hd : GFloat.div (GFloat.fin (Frac.ofInt 0)) (GFloat.fin secondsPerYear) =
      GFloat.fin ⟨0, 1⟩ := by decide
  have he : GFloat.div (GFloat.fin (Frac.ofInt 1)) (GFloat.fin ⟨0, 1⟩) = GFloat.inf := by
    decide
  rw [hd, he]
  exact pow_inf_rate pf _

/-- Witness for C4's amended theorem: principal 1, price 20, purchase at
the current instant — the theorem applies and the ratio 20 makes the rate
+Inf. -/
theorem currentRate_zero_elapsed_witness :
    currentRate unspecPow invA (GFloat.fin ⟨20, 1⟩) ⟨2006, 1, 2, 0, 0, 0⟩ =
      rateZeroElapsed (GFloat.div (GFloat.fin ⟨20, 1⟩) (GFloat.div invA.Total invA.Units))
  ∧ rateZeroElapsed (GFloat.div (GFloat.fin ⟨20, 1⟩) (GFloat.div invA.Total invA.Units)) =
      GFloat.inf :=
  ⟨currentRate_zero_elapsed unspecPow invA (GFloat.fin ⟨20, 1⟩) ⟨2006, 1, 2, 0, 0, 0⟩ rfl,
    by decide⟩
